import Mathlib

/-!
Verification of the fandom-scraper crawl engine (src/main.py) against its
specification.  The Python source is shallowly embedded: strings become
List Char or String, the BeautifulSoup document becomes an inductive tree,
re.sub calls become structural scanning functions, the asyncio-locked
URLManager becomes a state type acted on by an operation trace (the lock
serialises all operations, so every concurrent execution is some
interleaving, i.e. some sequence, of atomic operations).
-/

namespace Scraper

/-! ### Basic string machinery -/

/-- Whitespace class used by the CPython regex \s and by str.strip
(the ASCII part, which is all the proofs depend on). -/
def isPySpace (c : Char) : Bool :=
  c = ' ' || c = '\t' || c = '\n' || c = '\r' || c = '\x0b' || c = '\x0c'

/-- Substring test: Python's (needle in haystack) for strings. -/
def containsSub (needle : List Char) : List Char → Bool
  | [] => needle.isEmpty
  | c :: t => needle.isPrefixOf (c :: t) || containsSub needle t

/-- Substring test on String values. -/
def strIn (needle haystack : String) : Bool :=
  containsSub needle.toList haystack.toList

/-- Python str.strip: drop leading and trailing whitespace. -/
def pyStrip (l : List Char) : List Char :=
  ((l.dropWhile isPySpace).reverse.dropWhile isPySpace).reverse

/-! ### Module-level configuration (src/main.py lines 13-21)

user_input is the placeholder string the script ships with; BASE_URL and
START_PATH are computed from it by str.split at import time. -/

/-- Python str.split(sep) for a non-empty separator a :: sepRest. -/
def pySplit (a : Char) (sepRest : List Char) (s : List Char) : List (List Char) :=
  match s with
  | [] => [[]]
  | c :: rest =>
    if (a :: sepRest).isPrefixOf (c :: rest) then
      [] :: pySplit a sepRest (rest.drop sepRest.length)
    else
      match pySplit a sepRest rest with
      | [] => [[c]]
      | h :: t => (c :: h) :: t
termination_by s.length
decreasing_by
  · simp only [List.length_cons, List.length_drop]; omega
  · simp only [List.length_cons]; omega

def user_input : String := "Starting URL:"

/-- Result of user_input.split("fandom.com") at line 14/15. -/
def splitParts : List (List Char) :=
  pySplit 'f' "andom.com".toList user_input.toList

/-- Index [0] taken at line 14 (BASE_URL); in range. -/
def base_url_piece : Option (List Char) := splitParts.get? 0

/-- Index [1] taken at line 15 (START_PATH); none models the IndexError. -/
def start_path_piece : Option (List Char) := splitParts.get? 1

/-- MAX_CONCURRENT_WORKERS = os.cpu_count() // 3 (line 18). -/
def MAX_CONCURRENT_WORKERS (cpu_count : Nat) : Nat := cpu_count / 3

/-- Worker ids spawned by main (lines 193-196): one per i in
range(MAX_CONCURRENT_WORKERS). -/
def workerIds (n : Nat) : List Nat := (List.range n).map (fun i => i + 1)

/-! ### URLManager (src/main.py lines 25-51)

The deque is a List (FIFO: popleft from the front, append at the back),
the visited set is a duplicate-free List built by guarded insertion.  All
operations run under one asyncio.Lock, so a concurrent crawl is a
sequence of atomic FrontierOp applications. -/

structure URLManager (α : Type) where
  urls_to_visit : List α
  visited_urls : List α

def URLManager.init (start_url : α) : URLManager α :=
  ⟨[start_url], [start_url]⟩

/-- get_next_url: popleft if nonempty, else None. -/
def get_next_url (m : URLManager α) : Option α × URLManager α :=
  match m.urls_to_visit with
  | [] => (none, m)
  | u :: rest => (some u, ⟨rest, m.visited_urls⟩)

/-- Loop body of add_new_urls; the third argument accumulates the urls
actually appended, in order. -/
def add_new_urls_from [DecidableEq α] :
    URLManager α → List α → List α → URLManager α × List α
  | m, [], added => (m, added)
  | m, url :: rest, added =>
    if url ∈ m.visited_urls then add_new_urls_from m rest added
    else add_new_urls_from ⟨m.urls_to_visit ++ [url], url :: m.visited_urls⟩
      rest (added ++ [url])

/-- add_new_urls: returns the new manager and new_urls_added. -/
def add_new_urls [DecidableEq α] (m : URLManager α) (urls : List α) :
    URLManager α × Nat :=
  let r := add_new_urls_from m urls []
  (r.1, r.2.length)

/-- One atomic frontier operation: a get_next_url call or an
add_new_urls call with some batch of urls. -/
inductive FrontierOp (α : Type) where
  | pop
  | push (urls : List α)

/-- A crawl history: the manager state, every url popped so far (in
order), and every url ever inserted into the pending deque (in order,
the seed included). -/
structure CrawlTrace (α : Type) where
  mgr : URLManager α
  popped : List α
  appended : List α

def initTrace (start_url : α) : CrawlTrace α :=
  ⟨URLManager.init start_url, [], [start_url]⟩

def crawlStep [DecidableEq α] (t : CrawlTrace α) : FrontierOp α → CrawlTrace α
  | .pop =>
    match get_next_url t.mgr with
    | (some u, m2) => ⟨m2, t.popped ++ [u], t.appended⟩
    | (none, m2) => ⟨m2, t.popped, t.appended⟩
  | .push urls =>
    let r := add_new_urls_from t.mgr urls t.appended
    ⟨r.1, t.popped, r.2⟩

/-- Run a serialised sequence of frontier operations. -/
def runOps [DecidableEq α] (t : CrawlTrace α) (ops : List (FrontierOp α)) :
    CrawlTrace α :=
  ops.foldl crawlStep t

/-- The frontier invariant: the pending deque is duplicate-free and
contained in the visited set, no url was popped twice, popped urls never
return to the deque, and no url was ever appended twice. -/
def Inv (t : CrawlTrace α) : Prop :=
  t.mgr.urls_to_visit.Nodup ∧
  (∀ u ∈ t.mgr.urls_to_visit, u ∈ t.mgr.visited_urls) ∧
  t.popped.Nodup ∧
  (∀ u ∈ t.popped, u ∈ t.mgr.visited_urls ∧ u ∉ t.mgr.urls_to_visit) ∧
  t.appended.Nodup ∧
  (∀ u ∈ t.appended, u ∈ t.mgr.visited_urls)

/-! ### Robots policy (src/main.py lines 58, 61-75, 99-101)

WikiScraper builds urllib.robotparser.RobotFileParser() and only calls
parse on an HTTP 200; any other status or exception leaves the parser
untouched.  The structure mirrors CPython's RobotFileParser state:
can_fetch returns False while disallow_all/allow_all are unset and
last_checked is still 0 (robots.txt never parsed); rules stands for the
entry matching performed once a file has been parsed. -/

structure RobotFileParser where
  disallow_all : Bool
  allow_all : Bool
  last_checked : Nat
  rules : String → String → Bool

def RobotFileParser.initState : RobotFileParser :=
  ⟨false, false, 0, fun _ _ => true⟩

/-- CPython RobotFileParser.can_fetch: the early-return chain is exact;
the parsed-entry lookup is the rules field. -/
def can_fetch (rp : RobotFileParser) (useragent url : String) : Bool :=
  if rp.disallow_all then false
  else if rp.allow_all then true
  else if rp.last_checked = 0 then false
  else rp.rules useragent url

/-- Outcome of the robots.txt GET in setup_robots. -/
inductive RobotsFetchOutcome where
  | success (lines : List String)
  | badStatus (status : Nat)
  | failed

/-- setup_robots: parse only on status 200, in which case CPython
parse() calls modified() setting last_checked; every failure path leaves
the parser as constructed. -/
def setup_robots (parseRules : List String → String → String → Bool)
    (outcome : RobotsFetchOutcome) (rp : RobotFileParser) : RobotFileParser :=
  match outcome with
  | .success lines => { rp with last_checked := 1, rules := parseRules lines }
  | .badStatus _ => rp
  | .failed => rp

/-- fetch_page (lines 99-112): return None without fetching when
can_fetch denies; otherwise the network outcome (None on any error). -/
def fetch_page (rp : RobotFileParser) (useragent url : String)
    (response : Option String) : Option String :=
  if !(can_fetch rp useragent url) then none else response

/-! ### URL scope filter (src/main.py lines 77-91)

A ParsedURL is the urlparse result; is_valid_url takes the parsed base
url and the parsed candidate. -/

structure ParsedURL where
  scheme : String
  netloc : String
  path : String
  query : String
  fragment : String
deriving DecidableEq

/-- The fixed namespace markers rejected by substring test at lines 83-87. -/
def invalidPathParts : List String :=
  ["/wiki/Special:", "/wiki/File:", "/wiki/Category:", "/wiki/User:",
   "/wiki/User_blog:", "/wiki/Template:", "/wiki/Help:", "/wiki/MediaWiki:",
   "/wiki/Talk:", "/wiki/Forum:", "/wiki/Board:"]

def is_valid_url (base parsed : ParsedURL) : Bool :=
  if !(parsed.netloc = base.netloc) then false
  else if !("/wiki/".toList.isPrefixOf parsed.path.toList) then false
  else if invalidPathParts.any (fun p => strIn p parsed.path) then false
  else if strIn "action=edit" parsed.query || strIn "action=history" parsed.query then
    false
  else true

/-- urlparse(u)._replace(fragment="") at line 140. -/
def defrag (p : ParsedURL) : ParsedURL := { p with fragment := "" }

/-! ### Filename derivation (src/main.py lines 93-97) -/

/-- Python s.replace(pat, '', 1): delete the first occurrence of pat. -/
def replaceOnce (pat : List Char) : List Char → List Char
  | [] => []
  | c :: rest =>
    if pat.isPrefixOf (c :: rest) then (c :: rest).drop pat.length
    else c :: replaceOnce pat rest

/-- Character class of re.sub at line 96. -/
def illegalFileChars : List Char := ['\\', '/', '*', '?', ':', '\"', '<', '>', '|']

/-- The derived name before the [:200] truncation: strip the first
/wiki/, turn path separators into underscores, substitute illegal
filename characters, default to index when empty. -/
def derivedStem (p : ParsedURL) : List Char :=
  let path := (replaceOnce "/wiki/".toList p.path.toList).map
    (fun c => if c = '/' then '_' else c)
  let filename := path.map (fun c => if illegalFileChars.contains c then '_' else c)
  if filename.isEmpty then "index".toList else filename

/-- url_to_filename: os.path.join(dump_dir, filename[:200] + ".txt"). -/
def url_to_filename (dump_dir : List Char) (p : ParsedURL) : List Char :=
  dump_dir ++ '/' :: ((derivedStem p).take 200 ++ ".txt".toList)

/-! ### Whitespace normalization (src/main.py lines 126-127)

Line 126 is re.sub(r"\n\s*\n", "\n", text): within any maximal
whitespace run containing at least two newlines, the segment from the
first to the last newline collapses to a single newline (leftmost
matching with a greedy backtracking \s*).  Line 127 is
re.sub(r" +", " ", text).  Both are rendered as structural one-pass
state machines so that they compute by kernel reduction. -/

/-- First substitution.  State none: ordinary scanning.  State some buf:
a newline has just been emitted and buf holds (reversed) the
non-newline whitespace seen since; a further newline discards buf and
stays in the run, anything else flushes buf. -/
def sub1A : Option (List Char) → List Char → List Char
  | none, [] => []
  | none, c :: rest =>
    if c = '\n' then '\n' :: sub1A (some []) rest
    else c :: sub1A none rest
  | some buf, [] => buf.reverse
  | some buf, c :: rest =>
    if c = '\n' then sub1A (some []) rest
    else if isPySpace c then sub1A (some (c :: buf)) rest
    else buf.reverse ++ c :: sub1A none rest

def sub1 (l : List Char) : List Char := sub1A none l

/-- Second substitution: collapse runs of spaces; the flag records
whether the space of the current run has already been emitted. -/
def sub2A : Bool → List Char → List Char
  | _, [] => []
  | inSp, c :: rest =>
    if c = ' ' then (if inSp then sub2A true rest else ' ' :: sub2A true rest)
    else c :: sub2A false rest

def sub2 (l : List Char) : List Char := sub2A false l

/-- The two re.sub lines applied in source order. -/
def normalize (l : List Char) : List Char := sub2 (sub1 l)

def normalizeText (s : String) : String := String.mk (normalize s.toList)

/-- Checker: true iff no substring matches \n\s*\n.  The flag records
whether the scan is inside a whitespace run that already saw a newline. -/
def noNlNlA : Bool → List Char → Bool
  | _, [] => true
  | inRun, c :: rest =>
    if c = '\n' then (if inRun then false else noNlNlA true rest)
    else if isPySpace c then noNlNlA inRun rest
    else noNlNlA false rest

/-! ### HTML document model and the extractor
(src/main.py lines 114-144)

BeautifulSoup is embedded as a tree of elements (tag name, id
attribute, class list, href attribute, children) and text nodes.
find/find_all traverse in document (preorder) order; decompose of every
find_all([names]) hit removes exactly the maximal subtrees whose tag
name is in the list. -/

inductive Node where
  | el (tag : String) (idAttr : Option String) (classes : List String)
      (href : Option String) (children : List Node)
  | txt (s : String)

/-- find_all with a list of names matches on the tag name only; this is
the BeautifulSoup semantics of content_div.find_all([...]) at line 121
(entries like "table.infobox" are compared against tag names verbatim,
they are not CSS selectors). -/
def tagNameMatches (names : List String) : Node → Bool
  | .el tag _ _ _ _ => names.contains tag
  | .txt _ => false

mutual
def stripNode (names : List String) : Node → Node
  | .el tag idAttr classes href children =>
      .el tag idAttr classes href (stripList names children)
  | .txt s => .txt s
def stripList (names : List String) : List Node → List Node
  | [] => []
  | c :: rest =>
    if tagNameMatches names c then stripList names rest
    else stripNode names c :: stripList names rest
end

/-- The literal list passed to find_all at lines 121-123. -/
def decomposeTagNames : List String :=
  ["script", "style", "nav", "table.infobox", "div.toc", "figure", "aside"]

mutual
def nodeStrings : Node → List (List Char)
  | .el _ _ _ _ children => listStrings children
  | .txt s => [s.toList]
def listStrings : List Node → List (List Char)
  | [] => []
  | c :: rest => nodeStrings c ++ listStrings rest
end

/-- get_text(separator="\n", strip=True): strip each text node, drop the
empty ones, join with newlines. -/
def get_text (n : Node) : List Char :=
  ((((nodeStrings n).map pyStrip).filter (fun s => !s.isEmpty)).intersperse
    ['\n']).flatten

mutual
def nodeHrefs : Node → List String
  | .el tag _ _ href children =>
      (if tag = "a" then href.toList else []) ++ listHrefs children
  | .txt _ => []
def listHrefs : List Node → List String
  | [] => []
  | c :: rest => nodeHrefs c ++ listHrefs rest
end

/-- find_all("a", href=True) searches the descendants of content_div in
document order. -/
def descendantHrefs : Node → List String
  | .el _ _ _ _ children => listHrefs children
  | .txt _ => []

mutual
def findNode (p : Node → Bool) : Node → Option Node
  | .el tag idAttr classes href children =>
    if p (.el tag idAttr classes href children) then
      some (.el tag idAttr classes href children)
    else findList p children
  | .txt s => if p (.txt s) then some (.txt s) else none
def findList (p : Node → Bool) : List Node → Option Node
  | [] => none
  | c :: rest =>
    match findNode p c with
    | some r => some r
    | none => findList p rest
end

def isParserOutputDiv : Node → Bool
  | .el tag _ classes _ _ => tag = "div" && classes.contains "mw-parser-output"
  | .txt _ => false

def isContentTextDiv : Node → Bool
  | .el tag idAttr _ _ _ => tag = "div" && idAttr == some "mw-content-text"
  | .txt _ => false

/-- soup.find("div", class_="mw-parser-output") or
soup.find("div", id="mw-content-text") at line 117. -/
def findContentDiv (soup : Node) : Option Node :=
  match findNode isParserOutputDiv soup with
  | some d => some d
  | none => findNode isContentTextDiv soup

/-- The text the extractor produces for a located content region:
get_text on the stripped region, then the two re.sub lines. -/
def extracted_text (content_div : Node) : List Char :=
  normalize (get_text (stripNode decomposeTagNames content_div))

/-- The loop at lines 137-142.  resolve stands for the library composite
urlparse(urljoin(current_url, href)); the fragment is then dropped and
the result kept when is_valid_url accepts it. -/
def collect_links (resolve : String → ParsedURL) (base : ParsedURL) :
    List String → List ParsedURL
  | [] => []
  | href :: rest =>
    let cleaned := defrag (resolve href)
    if is_valid_url base cleaned then cleaned :: collect_links resolve base rest
    else collect_links resolve base rest

/-- Links as the code computes them: collected from the content region
after the decompose loop has run on it. -/
def links_from_code (resolve : String → ParsedURL) (base : ParsedURL)
    (content_div : Node) : List ParsedURL :=
  collect_links resolve base (descendantHrefs (stripNode decomposeTagNames content_div))

/-- Modelled from the spec: section 4.4 step 4 asks for the hyperlink
targets of the original (pre-strip) content region, resolved, fragment
stripped and filtered by the scope rule, in document order. -/
def links_from_spec (resolve : String → ParsedURL) (base : ParsedURL)
    (content_div : Node) : List ParsedURL :=
  ((descendantHrefs content_div).map (fun h => defrag (resolve h))).filter
    (fun u => is_valid_url base u)

/-- Outcome of the open/write at lines 130-135; IOError is caught there. -/
inductive SaveResult where
  | ok
  | ioError

/-- What one _parse_and_save call produced: the file written (none when
the write failed or no content region was found), the text, the links. -/
structure PageResult where
  savedFile : Option (List Char)
  text : Option (List Char)
  links : List ParsedURL
deriving DecidableEq

/-- _parse_and_save (lines 114-144): locate the region, strip, extract
and normalize text, attempt the write (an IOError is caught and only
logged), then collect links from the stripped region and return them. -/
def parse_and_save (resolve : String → ParsedURL) (base : ParsedURL)
    (dump_dir : List Char) (current_url : ParsedURL) (soup : Node)
    (save : SaveResult) : PageResult :=
  match findContentDiv soup with
  | none => ⟨none, none, []⟩
  | some cd =>
    let text := extracted_text cd
    let filename := url_to_filename dump_dir current_url
    { savedFile :=
        match save with
        | .ok => some filename
        | .ioError => none,
      text := some text,
      links := links_from_code resolve base cd }

/-- Worker step after process_page (lines 170-175): enqueue the returned
links when the list is nonempty. -/
def worker_enqueue (m : URLManager ParsedURL) (pr : PageResult) :
    URLManager ParsedURL :=
  if pr.links.isEmpty then m else (add_new_urls m pr.links).1

/-! ### Concrete inputs used by the counterexample and witness theorems -/

def demoBase : ParsedURL := ⟨"https", "w.fandom.com", "", "", ""⟩

/-- A resolver for the demo documents: hrefs are already absolute paths
on the base host. -/
def demoResolve : String → ParsedURL :=
  fun href => ⟨"https", "w.fandom.com", href, "", ""⟩

/-- A content region holding an infobox table, a toc div, a script and
body text. -/
def infoboxDoc : Node :=
  .el "div" none ["mw-parser-output"] none
    [ .el "table" none ["infobox"] none [.txt "INFOBOX DATA"],
      .el "div" (some "toc") ["toc"] none [.txt "TOC ENTRIES"],
      .el "script" none [] none [.txt "SCRIPT CODE"],
      .txt "Article body." ]

/-- A content region with a link inside a nav block and a link in the
body. -/
def navLinkDoc : Node :=
  .el "div" none ["mw-parser-output"] none
    [ .el "nav" none [] none [.el "a" none [] (some "/wiki/NavTarget") []],
      .el "a" none [] (some "/wiki/Body") [] ]

def urlA : ParsedURL := ⟨"https", "w.fandom.com", "/wiki/PageA", "", ""⟩

def urlB : ParsedURL := ⟨"https", "w.fandom.com", "/wiki/PageB", "", ""⟩

/-! ### Theorems -/

theorem pySplit_no_sep (a : Char) (sepRest : List Char) :
    ∀ s : List Char, containsSub (a :: sepRest) s = false → pySplit a sepRest s = [s] := by
  intro s
  induction s with
  | nil => intro _; simp [pySplit]
  | cons c rest ih =>
    intro h
    rw [containsSub, Bool.or_eq_false_iff] at h
    rw [pySplit.eq_def]
    simp only []
    rw [if_neg (by simp [h.1]), ih h.2]

/-- Claim C9: as the module is written, computing START_PATH at import
time fails: user_input does not contain "fandom.com", so the split is a
one-element list and index [1] is out of range (IndexError). -/
theorem start_path_index_error :
    splitParts = [user_input.toList] ∧ start_path_piece = none := by
  have h : pySplit 'f' "andom.com".toList user_input.toList = [user_input.toList] :=
    pySplit_no_sep 'f' "andom.com".toList user_input.toList (by decide)
  refine ⟨h, ?_⟩
  show splitParts.get? 1 = none
  rw [show splitParts = [user_input.toList] from h]
  rfl

/-- Claim C2: after a failed robots.txt initialization (non-success
status or exception) the code's policy filter denies every fetch:
CPython's RobotFileParser.can_fetch returns False whenever the file was
never parsed, so fetch_page returns None for every agent and URL.  This
contradicts the claimed allow-everything fallback. -/
theorem robots_failure_denies_all (parseRules : List String → String → String → Bool)
    (status : Nat) (agent url : String) (response : Option String) :
    can_fetch (setup_robots parseRules (.badStatus status) .initState) agent url
      = false ∧
    can_fetch (setup_robots parseRules .failed .initState) agent url = false ∧
    fetch_page (setup_robots parseRules (.badStatus status) .initState)
      agent url response = none ∧
    fetch_page (setup_robots parseRules .failed .initState)
      agent url response = none :=
  ⟨rfl, rfl, rfl, rfl⟩

/-- Claim C10: with fewer than 3 CPUs the worker count cpu_count // 3 is
zero, the spawned task list is empty, no frontier operation ever runs
(nothing is popped), and the visited count reported is the 1 seed URL. -/
theorem few_cpus_no_workers (cpu : Nat) (hcpu : cpu < 3) (seed : String)
    (traces : List (List (FrontierOp String)))
    (hlen : traces.length = MAX_CONCURRENT_WORKERS cpu) :
    MAX_CONCURRENT_WORKERS cpu = 0 ∧
    workerIds (MAX_CONCURRENT_WORKERS cpu) = [] ∧
    runOps (initTrace seed) traces.flatten = initTrace seed ∧
    (runOps (initTrace seed) traces.flatten).popped = [] ∧
    (initTrace seed).mgr.visited_urls.length = 1 := by
  have h0 : MAX_CONCURRENT_WORKERS cpu = 0 := Nat.div_eq_of_lt hcpu
  have ht : traces = [] := List.length_eq_zero.mp (by rw [hlen, h0])
  subst ht
  exact ⟨h0, by rw [h0]; rfl, rfl, rfl, rfl⟩

theorem few_cpus_no_workers_check :
    MAX_CONCURRENT_WORKERS 2 = 0 ∧
    workerIds (MAX_CONCURRENT_WORKERS 2) = [] ∧
    runOps (initTrace "seed") ([] : List (List (FrontierOp String))).flatten
      = initTrace "seed" ∧
    (runOps (initTrace "seed")
      ([] : List (List (FrontierOp String))).flatten).popped = [] ∧
    (initTrace "seed").mgr.visited_urls.length = 1 :=
  few_cpus_no_workers 2 (by decide) "seed" [] (by decide)

/-- Claim C7: url_to_filename is deterministic, and two URLs whose
derived (un-truncated) names differ within the first 200 characters get
distinct filenames. -/
theorem url_to_filename_inj (dump_dir : List Char) (u v : ParsedURL)
    (h : (derivedStem u).take 200 ≠ (derivedStem v).take 200) :
    url_to_filename dump_dir u = url_to_filename dump_dir u ∧
    url_to_filename dump_dir u ≠ url_to_filename dump_dir v := by
  refine ⟨rfl, fun heq => h ?_⟩
  unfold url_to_filename at heq
  have h1 : '/' :: ((derivedStem u).take 200 ++ ".txt".toList) =
      '/' :: ((derivedStem v).take 200 ++ ".txt".toList) :=
    List.append_cancel_left heq
  simp only [List.cons.injEq, true_and] at h1
  exact List.append_cancel_right h1

theorem url_to_filename_inj_check :
    (derivedStem urlA).take 200 ≠ (derivedStem urlB).take 200 ∧
    url_to_filename "./dump".toList urlA ≠ url_to_filename "./dump".toList urlB :=
  ⟨by decide, (url_to_filename_inj "./dump".toList urlA urlB (by decide)).2⟩

/-- Claim C5: the decompose loop passes "table.infobox" and "div.toc" as
tag names to find_all, which matches no real tag, so info-box and
table-of-contents content survives into the extracted text (while a
script block is removed as intended). -/
theorem strip_keeps_infobox_and_toc_text :
    containsSub "INFOBOX DATA".toList (extracted_text infoboxDoc) = true ∧
    containsSub "TOC ENTRIES".toList (extracted_text infoboxDoc) = true ∧
    containsSub "SCRIPT CODE".toList (extracted_text infoboxDoc) = false := by
  decide

theorem collect_links_eq_filter_map (resolve : String → ParsedURL) (base : ParsedURL) :
    ∀ hrefs : List String,
      collect_links resolve base hrefs =
        (hrefs.map (fun h => defrag (resolve h))).filter
          (fun u => is_valid_url base u) := by
  intro hrefs
  induction hrefs with
  | nil => rfl
  | cons h t ih =>
    simp only [collect_links, List.map_cons, List.filter_cons]
    cases hv : is_valid_url base (defrag (resolve h)) <;> simp [hv, ih]

/-- Claim C6, counterexample: the code scans the content region after
the decompose loop has mutated it, so a link inside a removed nav block
is absent from the returned list, contradicting the pre-strip reading. -/
theorem links_prestrip_counterexample :
    links_from_code demoResolve demoBase navLinkDoc ≠
      links_from_spec demoResolve demoBase navLinkDoc := by
  decide

/-- Claim C6, amended: the returned link list equals the hyperlink
targets of the post-strip content region, each resolved and
fragment-stripped, filtered by is_valid_url, in document order with
duplicates retained. -/
theorem links_post_strip_characterization (resolve : String → ParsedURL)
    (base : ParsedURL) (content_div : Node) :
    links_from_code resolve base content_div =
      ((descendantHrefs (stripNode decomposeTagNames content_div)).map
        (fun h => defrag (resolve h))).filter (fun u => is_valid_url base u) :=
  collect_links_eq_filter_map resolve base _

theorem is_valid_url_eq_true_iff (base u : ParsedURL) :
    is_valid_url base u = true ↔
      (u.netloc = base.netloc ∧
       "/wiki/".toList.isPrefixOf u.path.toList = true ∧
       invalidPathParts.any (fun p => strIn p u.path) = false ∧
       strIn "action=edit" u.query = false ∧
       strIn "action=history" u.query = false) := by
  unfold is_valid_url
  split_ifs with h1 h2 h3 h4 <;> simp_all
  intro h5
  rcases h4 with h4 | h4
  · rw [h5] at h4; exact Bool.noConfusion h4
  · exact h4

/-- Claim C3: is_valid_url rejects a URL whose host differs from the
base, whose path is not under /wiki/, whose path carries one of the
non-article namespace markers, or whose query requests an edit or
history view; it accepts a plain same-host content page. -/
theorem is_valid_url_scope (base u : ParsedURL) :
    (u.netloc ≠ base.netloc → is_valid_url base u = false) ∧
    ("/wiki/".toList.isPrefixOf u.path.toList = false → is_valid_url base u = false) ∧
    (∀ p ∈ invalidPathParts, strIn p u.path = true → is_valid_url base u = false) ∧
    ((strIn "action=edit" u.query = true ∨ strIn "action=history" u.query = true) →
      is_valid_url base u = false) ∧
    (u.netloc = base.netloc →
      "/wiki/".toList.isPrefixOf u.path.toList = true →
      (∀ p ∈ invalidPathParts, strIn p u.path = false) →
      strIn "action=edit" u.query = false →
      strIn "action=history" u.query = false →
      is_valid_url base u = true) := by
  have hiff := is_valid_url_eq_true_iff base u
  refine ⟨?_, ?_, ?_, ?_, ?_⟩
  · intro h
    cases hv : is_valid_url base u
    · rfl
    · exact absurd (hiff.mp hv).1 h
  · intro h
    cases hv : is_valid_url base u
    · rfl
    · have h2 := (hiff.mp hv).2.1
      rw [h] at h2
      exact Bool.noConfusion h2
  · intro p hp hs
    cases hv : is_valid_url base u
    · rfl
    · have h3 := (hiff.mp hv).2.2.1
      rw [List.any_eq_false] at h3
      have := h3 p hp
      rw [hs] at this
      exact absurd rfl this
  · intro hor
    cases hv : is_valid_url base u
    · rfl
    · rcases hor with h | h
      · have h4 := (hiff.mp hv).2.2.2.1
        rw [h] at h4
        exact Bool.noConfusion h4
      · have h5 := (hiff.mp hv).2.2.2.2
        rw [h] at h5
        exact Bool.noConfusion h5
  · intro hn hp hparts he hh
    refine hiff.mpr ⟨hn, hp, ?_, he, hh⟩
    rw [List.any_eq_false]
    intro p hmem
    rw [hparts p hmem]
    exact fun hfalse => Bool.noConfusion hfalse

theorem is_valid_url_scope_check :
    is_valid_url demoBase ⟨"https", "w.fandom.com", "/wiki/Home", "", ""⟩ = true ∧
    is_valid_url demoBase ⟨"https", "w.fandom.com", "/wiki/Special:Search", "", ""⟩
      = false := by
  constructor
  · exact (is_valid_url_scope demoBase _).2.2.2.2 (by decide) (by decide)
      (by decide) (by decide) (by decide)
  · exact (is_valid_url_scope demoBase _).2.2.1 "/wiki/Special:" (by decide) (by decide)

theorem noNlNlA_ws_append (w : List Char)
    (hw : ∀ c ∈ w, isPySpace c = true ∧ c ≠ '\n') :
    ∀ (b : Bool) (t : List Char), noNlNlA b (w ++ t) = noNlNlA b t := by
  induction w with
  | nil => intro b t; rfl
  | cons c w ih =>
    intro b t
    have hc := hw c (List.mem_cons_self c w)
    have hw2 : ∀ x ∈ w, isPySpace x = true ∧ x ≠ '\n' :=
      fun x hx => hw x (List.mem_cons_of_mem _ hx)
    have hstep : noNlNlA b (c :: (w ++ t)) = noNlNlA b (w ++ t) := by
      simp only [noNlNlA]
      rw [if_neg hc.2, if_pos hc.1]
    rw [List.cons_append, hstep, ih hw2]

theorem sub1A_no_nlnl (l : List Char) :
    (∀ buf, (∀ c ∈ buf, isPySpace c = true ∧ c ≠ '\n') →
        noNlNlA true (sub1A (some buf) l) = true) ∧
    noNlNlA false (sub1A none l) = true := by
  induction l with
  | nil =>
    refine ⟨?_, rfl⟩
    intro buf hbuf
    have hrev : ∀ c ∈ buf.reverse, isPySpace c = true ∧ c ≠ '\n' :=
      fun c hc => hbuf c (List.mem_reverse.mp hc)
    show noNlNlA true buf.reverse = true
    have h := noNlNlA_ws_append buf.reverse hrev true []
    rw [List.append_nil] at h
    rw [h]
    rfl
  | cons c rest ih =>
    constructor
    · intro buf hbuf
      by_cases hnl : c = '\n'
      · subst hnl
        show noNlNlA true (sub1A (some []) rest) = true
        exact ih.1 [] (fun x hx => absurd hx (List.not_mem_nil x))
      · by_cases hws : isPySpace c = true
        · have hrw : sub1A (some buf) (c :: rest) = sub1A (some (c :: buf)) rest := by
            simp only [sub1A]; rw [if_neg hnl, if_pos hws]
          rw [hrw]
          refine ih.1 (c :: buf) ?_
          intro x hx
          rcases List.mem_cons.mp hx with h | h
          · subst h; exact ⟨hws, hnl⟩
          · exact hbuf x h
        · have hrw : sub1A (some buf) (c :: rest) = buf.reverse ++ c :: sub1A none rest := by
            simp only [sub1A]; rw [if_neg hnl, if_neg hws]
          rw [hrw]
          have hrev : ∀ x ∈ buf.reverse, isPySpace x = true ∧ x ≠ '\n' :=
            fun x hx => hbuf x (List.mem_reverse.mp hx)
          rw [noNlNlA_ws_append buf.reverse hrev true (c :: sub1A none rest)]
          have hred : noNlNlA true (c :: sub1A none rest)
              = noNlNlA false (sub1A none rest) := by
            simp only [noNlNlA]; rw [if_neg hnl, if_neg hws]
          rw [hred]
          exact ih.2
    · by_cases hnl : c = '\n'
      · subst hnl
        show noNlNlA true (sub1A (some []) rest) = true
        exact ih.1 [] (fun x hx => absurd hx (List.not_mem_nil x))
      · have hrw : sub1A none (c :: rest) = c :: sub1A none rest := by
          simp only [sub1A]; rw [if_neg hnl]
        rw [hrw]
        by_cases hws : isPySpace c = true
        · have hred : noNlNlA false (c :: sub1A none rest)
              = noNlNlA false (sub1A none rest) := by
            simp only [noNlNlA]; rw [if_neg hnl, if_pos hws]
          rw [hred]; exact ih.2
        · have hred : noNlNlA false (c :: sub1A none rest)
              = noNlNlA false (sub1A none rest) := by
            simp only [noNlNlA]; rw [if_neg hnl, if_neg hws]
          rw [hred]; exact ih.2

theorem sub1A_id (l : List Char) :
    (noNlNlA false l = true → sub1A none l = l) ∧
    (∀ buf, noNlNlA true l = true → sub1A (some buf) l = buf.reverse ++ l) := by
  induction l with
  | nil =>
    exact ⟨fun _ => rfl, fun buf _ => (List.append_nil buf.reverse).symm⟩
  | cons c rest ih =>
    constructor
    · intro h
      by_cases hnl : c = '\n'
      · subst hnl
        have h2 : noNlNlA true rest = true := h
        show '\n' :: sub1A (some []) rest = '\n' :: rest
        rw [ih.2 [] h2]
        rfl
      · have hrw : sub1A none (c :: rest) = c :: sub1A none rest := by
          simp only [sub1A]; rw [if_neg hnl]
        rw [hrw]
        have h2 : noNlNlA false rest = true := by
          by_cases hws : isPySpace c = true
          · have hred : noNlNlA false (c :: rest) = noNlNlA false rest := by
              simp only [noNlNlA]; rw [if_neg hnl, if_pos hws]
            rw [hred] at h; exact h
          · have hred : noNlNlA false (c :: rest) = noNlNlA false rest := by
              simp only [noNlNlA]; rw [if_neg hnl, if_neg hws]
            rw [hred] at h; exact h
        rw [ih.1 h2]
    · intro buf h
      by_cases hnl : c = '\n'
      · subst hnl
        exact absurd h (fun hfalse => Bool.noConfusion hfalse)
      · by_cases hws : isPySpace c = true
        · have hrw : sub1A (some buf) (c :: rest) = sub1A (some (c :: buf)) rest := by
            simp only [sub1A]; rw [if_neg hnl, if_pos hws]
          have h2 : noNlNlA true rest = true := by
            have hred : noNlNlA true (c :: rest) = noNlNlA true rest := by
              simp only [noNlNlA]; rw [if_neg hnl, if_pos hws]
            rw [hred] at h; exact h
          rw [hrw, ih.2 (c :: buf) h2]
          simp [List.reverse_cons, List.append_assoc]
        · have hrw : sub1A (some buf) (c :: rest) = buf.reverse ++ c :: sub1A none rest := by
            simp only [sub1A]; rw [if_neg hnl, if_neg hws]
          have h2 : noNlNlA false rest = true := by
            have hred : noNlNlA true (c :: rest) = noNlNlA false rest := by
              simp only [noNlNlA]; rw [if_neg hnl, if_neg hws]
            rw [hred] at h; exact h
          rw [hrw, ih.1 h2]

theorem noNlNlA_sub2A (l : List Char) :
    ∀ s b : Bool, noNlNlA s l = true → noNlNlA s (sub2A b l) = true := by
  induction l with
  | nil => intro s b _; cases b <;> rfl
  | cons c rest ih =>
    intro s b h
    by_cases hsp : c = ' '
    · subst hsp
      have h2 : noNlNlA s rest = true := h
      cases b with
      | true =>
        show noNlNlA s (sub2A true rest) = true
        exact ih s true h2
      | false =>
        show noNlNlA s (' ' :: sub2A true rest) = true
        show noNlNlA s (sub2A true rest) = true
        exact ih s true h2
    · by_cases hnl : c = '\n'
      · subst hnl
        cases s with
        | true => exact Bool.noConfusion h
        | false =>
          have h2 : noNlNlA true rest = true := h
          have hrw : sub2A b ('\n' :: rest) = '\n' :: sub2A false rest := by
            simp only [sub2A]; rw [if_neg hsp]
          rw [hrw]
          show noNlNlA true (sub2A false rest) = true
          exact ih true false h2
      · have hrw : sub2A b (c :: rest) = c :: sub2A false rest := by
          simp only [sub2A]; rw [if_neg hsp]
        rw [hrw]
        by_cases hws : isPySpace c = true
        · have h2 : noNlNlA s rest = true := by
            have hred : noNlNlA s (c :: rest) = noNlNlA s rest := by
              simp only [noNlNlA]; rw [if_neg hnl, if_pos hws]
            rw [hred] at h; exact h
          have hred : noNlNlA s (c :: sub2A false rest)
              = noNlNlA s (sub2A false rest) := by
            simp only [noNlNlA]; rw [if_neg hnl, if_pos hws]
          rw [hred]
          exact ih s false h2
        · have h2 : noNlNlA false rest = true := by
            have hred : noNlNlA s (c :: rest) = noNlNlA false rest := by
              simp only [noNlNlA]; rw [if_neg hnl, if_neg hws]
            rw [hred] at h; exact h
          have hred : noNlNlA s (c :: sub2A false rest)
              = noNlNlA false (sub2A false rest) := by
            simp only [noNlNlA]; rw [if_neg hnl, if_neg hws]
          rw [hred]
          exact ih false false h2

theorem sub2A_idem (l : List Char) : ∀ b, sub2A b (sub2A b l) = sub2A b l := by
  induction l with
  | nil => intro b; cases b <;> rfl
  | cons c rest ih =>
    intro b
    by_cases hsp : c = ' '
    · subst hsp
      cases b with
      | true =>
        show sub2A true (sub2A true rest) = sub2A true rest
        exact ih true
      | false =>
        show sub2A false (' ' :: sub2A true rest) = ' ' :: sub2A true rest
        show ' ' :: sub2A true (sub2A true rest) = ' ' :: sub2A true rest
        exact congrArg _ (ih true)
    · have hrw : ∀ x, sub2A b (c :: x) = c :: sub2A false x := by
        intro x; simp only [sub2A]; rw [if_neg hsp]
      rw [hrw, hrw, ih false]

theorem normalize_idem_list (l : List Char) : normalize (normalize l) = normalize l := by
  have h1 : noNlNlA false (sub1A none l) = true := (sub1A_no_nlnl l).2
  have h2 : noNlNlA false (sub2A false (sub1A none l)) = true :=
    noNlNlA_sub2A (sub1A none l) false false h1
  have h3 : sub1A none (sub2A false (sub1A none l)) = sub2A false (sub1A none l) :=
    (sub1A_id (sub2A false (sub1A none l))).1 h2
  show sub2A false (sub1A none (sub2A false (sub1A none l))) = sub2A false (sub1A none l)
  rw [h3]
  exact sub2A_idem (sub1A none l) false

/-- Claim C4: the whitespace normalization applied at lines 126-127
(collapse blank-line runs to one newline, then space runs to one space)
is idempotent on every input string. -/
theorem normalize_idempotent (x : String) :
    normalizeText (normalizeText x) = normalizeText x := by
  show String.mk (normalize (String.mk (normalize x.toList)).toList)
      = String.mk (normalize x.toList)
  have h : (String.mk (normalize x.toList)).toList = normalize x.toList := rfl
  rw [h, normalize_idem_list]

theorem add_from_preserves {α : Type} [DecidableEq α] (urls : List α) :
    ∀ (m : URLManager α) (popped acc : List α),
      Inv ⟨m, popped, acc⟩ →
      Inv ⟨(add_new_urls_from m urls acc).1, popped, (add_new_urls_from m urls acc).2⟩ ∧
      (∀ x ∈ m.visited_urls, x ∈ (add_new_urls_from m urls acc).1.visited_urls) := by
  induction urls with
  | nil => intro m popped acc h; exact ⟨h, fun x hx => hx⟩
  | cons url rest ih =>
    intro m popped acc h
    obtain ⟨h1, h2, h3, h4, h5, h6⟩ := h
    by_cases hv : url ∈ m.visited_urls
    · rw [show add_new_urls_from m (url :: rest) acc = add_new_urls_from m rest acc from by
        simp only [add_new_urls_from]; rw [if_pos hv]]
      exact ih m popped acc ⟨h1, h2, h3, h4, h5, h6⟩
    · rw [show add_new_urls_from m (url :: rest) acc
          = add_new_urls_from ⟨m.urls_to_visit ++ [url], url :: m.visited_urls⟩
              rest (acc ++ [url]) from by
        simp only [add_new_urls_from]; rw [if_neg hv]]
      have hInv2 : Inv ⟨⟨m.urls_to_visit ++ [url], url :: m.visited_urls⟩,
          popped, acc ++ [url]⟩ := by
        refine ⟨?_, ?_, h3, ?_, ?_, ?_⟩
        · refine List.Nodup.append h1 (List.nodup_singleton url) ?_
          intro a ha hb
          rw [List.mem_singleton] at hb
          subst hb
          exact hv (h2 a ha)
        · intro u hu
          rcases List.mem_append.mp hu with hu | hu
          · exact List.mem_cons_of_mem _ (h2 u hu)
          · rw [List.mem_singleton] at hu; subst hu; exact List.mem_cons_self _ _
        · intro u hu
          obtain ⟨hv1, hp1⟩ := h4 u hu
          refine ⟨List.mem_cons_of_mem _ hv1, ?_⟩
          intro hmem
          rcases List.mem_append.mp hmem with hm | hm
          · exact hp1 hm
          · rw [List.mem_singleton] at hm; subst hm; exact hv hv1
        · refine List.Nodup.append h5 (List.nodup_singleton url) ?_
          intro a ha hb
          rw [List.mem_singleton] at hb
          subst hb
          exact hv (h6 a ha)
        · intro u hu
          rcases List.mem_append.mp hu with hm | hm
          · exact List.mem_cons_of_mem _ (h6 u hm)
          · rw [List.mem_singleton] at hm; subst hm; exact List.mem_cons_self _ _
      obtain ⟨ha, hb⟩ := ih ⟨m.urls_to_visit ++ [url], url :: m.visited_urls⟩
        popped (acc ++ [url]) hInv2
      exact ⟨ha, fun x hx => hb x (List.mem_cons_of_mem _ hx)⟩

theorem crawlStep_preserves {α : Type} [DecidableEq α] (t : CrawlTrace α)
    (op : FrontierOp α) (h : Inv t) :
    Inv (crawlStep t op) ∧
    ∀ x ∈ t.mgr.visited_urls, x ∈ (crawlStep t op).mgr.visited_urls := by
  obtain ⟨m, popped, appended⟩ := t
  obtain ⟨h1, h2, h3, h4, h5, h6⟩ := h
  cases op with
  | pop =>
    cases hq : m.urls_to_visit with
    | nil =>
      have hrw : crawlStep ⟨m, popped, appended⟩ .pop = ⟨m, popped, appended⟩ := by
        simp only [crawlStep, get_next_url, hq]
      rw [hrw]
      exact ⟨⟨h1, h2, h3, h4, h5, h6⟩, fun x hx => hx⟩
    | cons u rest =>
      have hrw : crawlStep ⟨m, popped, appended⟩ .pop
          = ⟨⟨rest, m.visited_urls⟩, popped ++ [u], appended⟩ := by
        simp only [crawlStep, get_next_url, hq]
      rw [hrw]
      have hnodup := hq ▸ h1
      have hu_mem : u ∈ m.urls_to_visit := by rw [hq]; exact List.mem_cons_self _ _
      refine ⟨⟨(List.nodup_cons.mp hnodup).2, ?_, ?_, ?_, h5, h6⟩, fun x hx => hx⟩
      · intro x hx
        exact h2 x (by rw [hq]; exact List.mem_cons_of_mem _ hx)
      · refine List.Nodup.append h3 (List.nodup_singleton u) ?_
        intro a ha hb
        rw [List.mem_singleton] at hb
        subst hb
        exact (h4 a ha).2 hu_mem
      · intro x hx
        rcases List.mem_append.mp hx with hm | hm
        · obtain ⟨hxv, hxp⟩ := h4 x hm
          exact ⟨hxv, fun hr => hxp (by rw [hq]; exact List.mem_cons_of_mem _ hr)⟩
        · rw [List.mem_singleton] at hm
          subst hm
          exact ⟨h2 x hu_mem, (List.nodup_cons.mp hnodup).1⟩
  | push urls =>
    exact add_from_preserves urls m popped appended ⟨h1, h2, h3, h4, h5, h6⟩

theorem runOps_preserves {α : Type} [DecidableEq α] (ops : List (FrontierOp α)) :
    ∀ t : CrawlTrace α, Inv t →
      Inv (runOps t ops) ∧
      ∀ x ∈ t.mgr.visited_urls, x ∈ (runOps t ops).mgr.visited_urls := by
  induction ops with
  | nil => intro t h; exact ⟨h, fun x hx => hx⟩
  | cons op rest ih =>
    intro t h
    obtain ⟨ha, hb⟩ := crawlStep_preserves t op h
    obtain ⟨hc, hd⟩ := ih (crawlStep t op) ha
    exact ⟨hc, fun x hx => hd x (hb x hx)⟩

theorem initTrace_inv {α : Type} (start_url : α) : Inv (initTrace start_url) := by
  refine ⟨List.nodup_singleton _, ?_, List.nodup_nil, ?_,
    List.nodup_singleton _, ?_⟩
  · intro u hu
    have hu2 : u ∈ [start_url] := hu
    rw [List.mem_singleton] at hu2
    subst hu2
    show u ∈ [u]
    exact List.mem_singleton.mpr rfl
  · intro u hu; exact absurd hu (List.not_mem_nil u)
  · intro u hu
    have hu2 : u ∈ [start_url] := hu
    rw [List.mem_singleton] at hu2
    subst hu2
    show u ∈ [u]
    exact List.mem_singleton.mpr rfl

/-- Claim C1: over any serialised sequence of frontier operations (which
is what any concurrent schedule reduces to under the manager's lock), no
URL is popped twice, no URL is appended to the pending deque twice, the
pending deque stays inside the visited set, and the visited set never
loses a member. -/
theorem urlmanager_no_duplicate_visits (start_url : String)
    (ops : List (FrontierOp String)) :
    (runOps (initTrace start_url) ops).popped.Nodup ∧
    (runOps (initTrace start_url) ops).appended.Nodup ∧
    (∀ u ∈ (runOps (initTrace start_url) ops).mgr.urls_to_visit,
        u ∈ (runOps (initTrace start_url) ops).mgr.visited_urls) ∧
    (∀ more : List (FrontierOp String),
        ∀ u ∈ (runOps (initTrace start_url) ops).mgr.visited_urls,
          u ∈ (runOps (initTrace start_url) (ops ++ more)).mgr.visited_urls) := by
  obtain ⟨h1, h2, h3, h4, h5, h6⟩ :=
    (runOps_preserves ops (initTrace start_url) (initTrace_inv start_url)).1
  refine ⟨h3, h5, h2, ?_⟩
  intro more u hu
  have hsplit : runOps (initTrace start_url) (ops ++ more)
      = runOps (runOps (initTrace start_url) ops) more := by
    simp [runOps, List.foldl_append]
  rw [hsplit]
  exact (runOps_preserves more _
    (runOps_preserves ops _ (initTrace_inv start_url)).1).2 u hu

/-- Claim C8: an IOError while persisting only loses the saved file;
the text and the already-collected links of that page are returned
unchanged, and the worker enqueues exactly the same links. -/
theorem save_error_keeps_links (resolve : String → ParsedURL) (base : ParsedURL)
    (dump_dir : List Char) (current_url : ParsedURL) (soup : Node)
    (m : URLManager ParsedURL) :
    (parse_and_save resolve base dump_dir current_url soup .ioError).links =
      (parse_and_save resolve base dump_dir current_url soup .ok).links ∧
    (parse_and_save resolve base dump_dir current_url soup .ioError).text =
      (parse_and_save resolve base dump_dir current_url soup .ok).text ∧
    worker_enqueue m (parse_and_save resolve base dump_dir current_url soup .ioError) =
      worker_enqueue m (parse_and_save resolve base dump_dir current_url soup .ok) := by
  cases h : findContentDiv soup <;>
    simp [parse_and_save, h, worker_enqueue]

end Scraper
